import Mathlib

/-!
Verification of the pdf-generator caching core
==============================================

A shallow embedding of the result-caching subsystem and generation-job
lifecycle of the `pdf-generator` repository:

* `src/src/services/cache-manager.ts` — `CacheManager` (fingerprint
  derivation, bounded durable store with TTL expiry and oldest-first
  eviction, index persistence);
* `src/src/services/pdf-generator.ts` — `EnhancedPDFGenerator`
  (job submission, asynchronous processing pipeline, cancellation).

Modelling conventions:

* JSON-like values (`data`, `options`, cached payloads) are the inductive
  family `Json` / `JsonList` / `JsonFields`; JavaScript objects are ordered
  field lists (insertion order), exactly as iterated by `Object.keys`.
* JavaScript `Map` objects are association lists with the first binding of
  a key authoritative (`mapGet` / `mapSet` / `mapErase`).
* Timestamps (`Date.now()`) and durations are `Nat` parameters passed
  explicitly; `Date.now()` always returns a value far below JavaScript's
  `Number.MAX_SAFE_INTEGER = 2^53 - 1`, which theorems assume explicitly
  where the code relies on it.
* The filesystem is a path-to-content map.  Payload files hold
  `JSON.stringify`-serialized data and are read back with `JSON.parse`;
  since `JSON.parse ∘ JSON.stringify` is the identity on the JSON-
  representable values modelled here, file contents are stored as `Json`
  values, while entry sizes use the serialized byte length.
* The cryptographic hash in `generateCacheKey` is an arbitrary function
  parameter `hash : String → String`: every determinism statement proved
  below holds for all such functions, in particular for SHA-256.
-/

namespace PdfGen

-- JSON-like values, as accepted by `JSON.stringify`: `null`, booleans,
-- numbers, strings, arrays, and objects whose fields are kept in insertion
-- order (the order `Object.keys` iterates them).
mutual
inductive Json where
  | null
  | bool (b : Bool)
  | num (n : Int)
  | str (s : String)
  | arr (items : JsonList)
  | obj (fields : JsonFields)

inductive JsonList where
  | nil
  | cons (head : Json) (tail : JsonList)

inductive JsonFields where
  | nil
  | cons (key : String) (value : Json) (tail : JsonFields)
end

/-- The fields of a JSON object as a list of key/value pairs. -/
def JsonFields.toList : JsonFields → List (String × Json)
  | .nil => []
  | .cons k v fs => (k, v) :: fs.toList

/-- Rebuild a JSON object's fields from a list of key/value pairs. -/
def JsonFields.ofList : List (String × Json) → JsonFields
  | [] => .nil
  | (k, v) :: rest => .cons k v (JsonFields.ofList rest)

/-- The keys of a JSON object, in field order (`Object.keys(obj)`). -/
def JsonFields.keys : JsonFields → List String
  | .nil => []
  | .cons k _ fs => k :: fs.keys

/-- Lexicographic comparison of character lists by code point: the order
JavaScript's default `Array.prototype.sort()` applies to the strings
returned by `Object.keys`. -/
def charListLe : List Char → List Char → Bool
  | [], _ => true
  | _ :: _, [] => false
  | a :: as, b :: bs => if a < b then true else if b < a then false else charListLe as bs

/-- Ordering of object fields by key, as used to canonicalize objects:
`Object.keys(obj).sort()` compares key strings by code units. -/
def keyLe (p q : String × Json) : Prop := charListLe p.1.data q.1.data = true

instance : DecidableRel keyLe :=
  fun p q => inferInstanceAs (Decidable (charListLe p.1.data q.1.data = true))

-- `CacheManager.sortObjectKeys` (cache-manager.ts:274-291): primitives and
-- `null` are returned unchanged, arrays keep their order and are mapped
-- recursively, and objects are rebuilt with their keys sorted
-- (`Object.keys(obj).sort()`) and their values canonicalized recursively.
mutual
def sortObjectKeys : Json → Json
  | .null => .null
  | .bool b => .bool b
  | .num n => .num n
  | .str s => .str s
  | .arr items => .arr (sortList items)
  | .obj fields =>
      .obj (JsonFields.ofList (List.insertionSort keyLe (sortFields fields).toList))

def sortList : JsonList → JsonList
  | .nil => .nil
  | .cons x xs => .cons (sortObjectKeys x) (sortList xs)

def sortFields : JsonFields → JsonFields
  | .nil => .nil
  | .cons k v fs => .cons k (sortObjectKeys v) (sortFields fs)
end

-- Deep structural equality of JSON values up to re-ordering of object keys
-- at any nesting depth ("deep-equal" in the specification): scalars must be
-- equal, arrays must match pointwise in order, and each object field must be
-- matched (by key) by a field of the other object, in any order.
def extractKey : JsonFields → String → Option (Json × JsonFields)
  | .nil, _ => none
  | .cons k' v rest, k =>
      if k' = k then some (v, rest)
      else
        match extractKey rest k with
        | some (w, rest') => some (w, .cons k' v rest')
        | none => none

mutual
def equivb : Json → Json → Bool
  | .null, .null => true
  | .bool a, .bool b => a == b
  | .num a, .num b => a == b
  | .str a, .str b => a == b
  | .arr xs, .arr ys => equivbList xs ys
  | .obj fs, .obj gs => equivbFields fs gs
  | _, _ => false

def equivbList : JsonList → JsonList → Bool
  | .nil, .nil => true
  | .cons x xs, .cons y ys => equivb x y && equivbList xs ys
  | _, _ => false

def equivbFields : JsonFields → JsonFields → Bool
  | .nil, .nil => true
  | .nil, .cons _ _ _ => false
  | .cons k v fs, gs =>
      match extractKey gs k with
      | some (w, gs') => equivb v w && equivbFields fs gs'
      | none => false
end

-- Well-formedness of a JSON value as the image of a JavaScript value: a
-- JavaScript object cannot carry the same key twice, at any nesting depth.
def keysNodupb : List String → Bool
  | [] => true
  | k :: ks => !(ks.contains k) && keysNodupb ks

mutual
def nodupKeys : Json → Bool
  | .null => true
  | .bool _ => true
  | .num _ => true
  | .str _ => true
  | .arr xs => nodupKeysList xs
  | .obj fs => keysNodupb fs.keys && nodupKeysFields fs

def nodupKeysList : JsonList → Bool
  | .nil => true
  | .cons x xs => nodupKeys x && nodupKeysList xs

def nodupKeysFields : JsonFields → Bool
  | .nil => true
  | .cons _ v fs => nodupKeys v && nodupKeysFields fs
end

-- `JSON.stringify` on the modelled values (string escaping elided: only
-- determinism of the serialization matters for the properties below, never
-- the exact characters produced).  Double quotes are `\x22`.
mutual
def stringify : Json → String
  | .null => "null"
  | .bool b => if b then "true" else "false"
  | .num n => toString n
  | .str s => "\x22" ++ s ++ "\x22"
  | .arr xs => "[" ++ stringifyList xs ++ "]"
  | .obj fs => "\x7b" ++ stringifyFields fs ++ "\x7d"

def stringifyList : JsonList → String
  | .nil => ""
  | .cons x .nil => stringify x
  | .cons x (.cons y ys) => stringify x ++ "," ++ stringifyList (.cons y ys)

def stringifyFields : JsonFields → String
  | .nil => ""
  | .cons k v .nil => "\x22" ++ k ++ "\x22:" ++ stringify v
  | .cons k v (.cons k' w fs) =>
      "\x22" ++ k ++ "\x22:" ++ stringify v ++ "," ++ stringifyFields (.cons k' w fs)
end

-- The serialized UTF-8 byte length of a string
-- (`Buffer.byteLength(serializedData, 'utf-8')` in cache-manager.ts:93).
def byteLength (s : String) : Nat :=
  (s.data.map Char.utf8Size).sum

/-- `CacheManager.generateCacheKey` (cache-manager.ts:45-59): canonicalize
`data` and `options` with `sortObjectKeys`, serialize the payload object
`\x7b templateId, data, options \x7d`, hash it, and return
`templateId ++ "_" ++` the first 16 hex characters of the digest.  The
cryptographic digest (`crypto.createHash('sha256')...digest('hex')`) is an
arbitrary function parameter: every theorem below holds for all `hash`. -/
def generateCacheKey (hash : String → String) (templateId : String)
    (data options : Json) : String :=
  let payload : Json :=
    .obj (.cons "templateId" (.str templateId)
      (.cons "data" (sortObjectKeys data)
        (.cons "options" (sortObjectKeys options) .nil)))
  templateId ++ "_" ++ (hash (stringify payload)).take 16

-- ## Content store: `CacheManager` (cache-manager.ts)

/-- One record of the in-memory cache index (`CacheEntry`,
cache-manager.ts:5-16).  The optional `metadata` field is omitted: no
property below depends on it. -/
structure CacheEntry where
  key : String
  data : Json
  timestamp : Nat
  expiresAt : Nat
  size : Nat

/-- JavaScript `Map.get`: the value bound to `k`, if any.  JavaScript maps
bind each key at most once; association lists model them with the first
binding authoritative. -/
def mapGet {α : Type} : List (String × α) → String → Option α
  | [], _ => none
  | (k', v) :: rest, k => if k' = k then some v else mapGet rest k

/-- JavaScript `Map.set`: replace the existing binding of `k` in place, or
append a new binding at the end. -/
def mapSet {α : Type} : List (String × α) → String → α → List (String × α)
  | [], k, v => [(k, v)]
  | (k', v') :: rest, k, v =>
      if k' = k then (k, v) :: rest else (k', v') :: mapSet rest k v

/-- JavaScript `Map.delete` (also models `fs.unlink` on the path map):
remove the binding of `k`, a no-op when `k` is absent. -/
def mapErase {α : Type} : List (String × α) → String → List (String × α)
  | [], _ => []
  | (k', v') :: rest, k => if k' = k then rest else (k', v') :: mapErase rest k

/-- State of a `CacheManager` instance (cache-manager.ts:18-32) together
with the part of the filesystem it owns: `files` maps payload file paths
to their (parsed) JSON contents, and `persistedIndex` is the index as last
written to `cacheDir/index.json` by `saveCacheIndex`. -/
structure CacheManager where
  cacheDir : String
  maxSize : Nat
  defaultTTL : Nat
  cacheIndex : List (String × CacheEntry)
  files : List (String × Json)
  persistedIndex : List (String × CacheEntry)

/-- `getCacheFilePath` (cache-manager.ts:270-272): `cacheDir/key.json`. -/
def getCacheFilePath (cacheDir key : String) : String :=
  cacheDir ++ "/" ++ key ++ ".json"

/-- Total of the `size` fields over the index, as accumulated by the loop
at cache-manager.ts:241-244. -/
def totalSize (idx : List (String × CacheEntry)) : Nat :=
  (idx.map (fun p => p.2.size)).sum

/-- `Number.MAX_SAFE_INTEGER`, the initial `oldestTimestamp` of the
eviction scan (cache-manager.ts:250). -/
def MAX_SAFE_INTEGER : Nat := 2 ^ 53 - 1

/-- The scan at cache-manager.ts:252-257: find the key of the first entry
whose timestamp is strictly smaller than every earlier one, starting from
`Number.MAX_SAFE_INTEGER`. -/
def findOldestLoop : List (String × CacheEntry) → Option String → Nat → Option String
  | [], best, _ => best
  | (k, e) :: rest, best, bestTs =>
      if e.timestamp < bestTs then findOldestLoop rest (some k) e.timestamp
      else findOldestLoop rest best bestTs

def findOldestKey (idx : List (String × CacheEntry)) : Option String :=
  findOldestLoop idx none MAX_SAFE_INTEGER

/-- `CacheManager.delete` (cache-manager.ts:119-141): absent keys return
`false` and change nothing; for a present key the payload file is unlinked
(failure — e.g. the file is already gone — is swallowed by the empty
`catch`), the key is removed from the index, the index is persisted, and
the call returns `true`. -/
def CacheManager.delete (cm : CacheManager) (key : String) : CacheManager × Bool :=
  match mapGet cm.cacheIndex key with
  | none => (cm, false)
  | some _ =>
      let files := mapErase cm.files (getCacheFilePath cm.cacheDir key)
      let idx := mapErase cm.cacheIndex key
      ({ cm with files := files, cacheIndex := idx, persistedIndex := idx }, true)

/-- The `while` loop of `ensureSpace` (cache-manager.ts:247-267), with an
explicit fuel argument so the model is executable; `ensureSpace` passes
`cacheIndex.length + 1`, which the lemmas below show is never exhausted.
The two `unreachable` branches return the state unchanged: the first can
only be reached when every timestamp is at least `MAX_SAFE_INTEGER`
(impossible for `Date.now()`; the JavaScript loop would spin forever
there), the second never, since `findOldestKey` only returns present
keys. -/
def ensureSpaceLoop (fuel : Nat) (newEntrySize : Nat) (currentSize : Nat)
    (cm : CacheManager) : CacheManager :=
  match fuel with
  | 0 => cm
  | fuel + 1 =>
      if cm.maxSize < currentSize + newEntrySize ∧ 0 < cm.cacheIndex.length then
        match findOldestKey cm.cacheIndex with
        | some oldestKey =>
            match mapGet cm.cacheIndex oldestKey with
            | some removedEntry =>
                ensureSpaceLoop fuel newEntrySize (currentSize - removedEntry.size)
                  (cm.delete oldestKey).1
            | none => cm
        | none => cm
      else cm

/-- `ensureSpace` (cache-manager.ts:238-268): compute the current total
size, then evict oldest entries while `currentSize + newEntrySize`
exceeds `maxSize` and the index is non-empty. -/
def ensureSpace (cm : CacheManager) (newEntrySize : Nat) : CacheManager :=
  ensureSpaceLoop (cm.cacheIndex.length + 1) newEntrySize (totalSize cm.cacheIndex) cm

/-- `CacheManager.set` (cache-manager.ts:86-117): serialize, measure, make
space, write the payload file, update the index, persist the index.
`now` stands for `Date.now()` and `ttl` for the (defaulted) time to
live. -/
def CacheManager.set (cm : CacheManager) (key : String) (data : Json)
    (ttl : Nat) (now : Nat) : CacheManager :=
  let size := byteLength (stringify data)
  let cm1 := ensureSpace cm size
  let entry : CacheEntry :=
    { key := key, data := data, timestamp := now, expiresAt := now + ttl, size := size }
  let files := mapSet cm1.files (getCacheFilePath cm1.cacheDir key) data
  let idx := mapSet cm1.cacheIndex key entry
  { cm1 with files := files, cacheIndex := idx, persistedIndex := idx }

/-- `CacheManager.get` (cache-manager.ts:61-84): absent keys miss; an entry
with `now > expiresAt` is deleted and misses; otherwise the payload file
is read and parsed (a missing/corrupt file deletes the entry and misses;
parsed contents are modelled as the stored `Json` value). -/
def CacheManager.get (cm : CacheManager) (key : String) (now : Nat) :
    CacheManager × Option Json :=
  match mapGet cm.cacheIndex key with
  | none => (cm, none)
  | some entry =>
      if entry.expiresAt < now then ((cm.delete key).1, none)
      else
        match mapGet cm.files (getCacheFilePath cm.cacheDir key) with
        | some content => (cm, some content)
        | none => ((cm.delete key).1, none)

/-- A fresh `CacheManager` (constructor, cache-manager.ts:24-32) with an
empty store. -/
def emptyCM (cacheDir : String) (maxSize defaultTTL : Nat) : CacheManager :=
  { cacheDir := cacheDir, maxSize := maxSize, defaultTTL := defaultTTL,
    cacheIndex := [], files := [], persistedIndex := [] }

/-- One `set` call of a workload: `set(key, data, ttl)` issued when
`Date.now() = now`. -/
structure SetOp where
  key : String
  data : Json
  ttl : Nat
  now : Nat

def applySets (cm : CacheManager) : List SetOp → CacheManager
  | [] => cm
  | op :: rest => applySets (cm.set op.key op.data op.ttl op.now) rest

-- ## Persistence trace of `saveCacheIndex` (cache-manager.ts:214-221)

/-- Filesystem operations a persistence step may perform. -/
inductive FsOp where
  | write (path : String) (content : String)
  | rename (src : String) (dst : String)
deriving DecidableEq

/-- JSON image of a cache index entry, as serialized into `index.json`. -/
def entryJson (e : CacheEntry) : Json :=
  .obj (.cons "key" (.str e.key)
    (.cons "data" e.data
      (.cons "timestamp" (.num e.timestamp)
        (.cons "expiresAt" (.num e.expiresAt)
          (.cons "size" (.num e.size) .nil)))))

def indexJson : List (String × CacheEntry) → JsonFields
  | [] => .nil
  | (k, e) :: rest => .cons k (entryJson e) (indexJson rest)

/-- The filesystem operations performed by `saveCacheIndex`
(cache-manager.ts:214-221): a single `fs.writeFile` of the serialized
index directly to `cacheDir/index.json` (pretty-printing elided). -/
def saveCacheIndexOps (cacheDir : String) (idx : List (String × CacheEntry)) :
    List FsOp :=
  [FsOp.write (cacheDir ++ "/index.json") (stringify (.obj (indexJson idx)))]

/-- An atomic write-new-then-replace rewrite of the file at `indexPath`:
the new contents go to a separate location which is then renamed over the
index path. -/
def atomicRewrite (indexPath : String) (ops : List FsOp) : Prop :=
  ∃ tmp content, tmp ≠ indexPath ∧
    ops = [FsOp.write tmp content, FsOp.rename tmp indexPath]

-- ## Job ledger and orchestrator: `EnhancedPDFGenerator` (pdf-generator.ts)

/-- `JobStatus` (templates.ts:331). -/
inductive JobStatus where
  | pending
  | processing
  | completed
  | failed
deriving DecidableEq

/-- `GenerationJob` (templates.ts:333-354).  `data`/`options` are carried
inside `GenerationOptions`; `result` holds the result payload as a JSON
value. -/
structure GenerationJob where
  id : String
  templateId : String
  status : JobStatus
  progress : Nat
  result : Option Json
  error : Option String
  createdAt : Nat
  updatedAt : Nat
  expiresAt : Nat

/-- The slice of `TemplateConfig` (templates.ts:7-39) the orchestrator
reads: identity/version, engine, template path and declared assets.  The
zod `schema` is consulted only through the external Schema Validator,
which is an oracle of `RenderEnv` below. -/
structure TemplateConfig where
  id : String
  name : String
  version : String
  engine : String
  templatePath : String
  assets : List String

/-- `TEMPLATE_REGISTRY` (templates.ts:154-281): the four registered
templates. -/
def TEMPLATE_REGISTRY : List (String × TemplateConfig) :=
  [("business-plan",
    { id := "business-plan", name := "Business Plan Template", version := "2.0.0",
      engine := "handlebars", templatePath := "templates/business-plan/index.hbs",
      assets := ["logos", "charts"] }),
   ("proposal",
    { id := "proposal", name := "Business Proposal Template", version := "1.5.0",
      engine := "handlebars", templatePath := "templates/proposal/index.hbs",
      assets := ["logos"] }),
   ("invoice",
    { id := "invoice", name := "Professional Invoice Template", version := "1.0.0",
      engine := "handlebars", templatePath := "templates/invoice/index.hbs",
      assets := ["logos"] }),
   ("report",
    { id := "report", name := "Technical Report Template", version := "1.0.0",
      engine := "handlebars", templatePath := "templates/report/index.hbs",
      assets := ["logos"] })]

/-- A generation request (`GenerationOptions`, pdf-generator.ts:11-34).
`asJson` is the request object itself as a JSON value: `processJob` hashes
the whole `options` record when computing the fingerprint
(pdf-generator.ts:182), so the model carries its JSON image alongside the
two fields the orchestrator destructures. -/
structure GenerationOptions where
  templateId : String
  data : Json
  asJson : Json

/-- Jobs ledger and content store owned by one `EnhancedPDFGenerator`. -/
structure GeneratorState where
  jobs : List (String × GenerationJob)
  cache : CacheManager

/-- `generatePDF` (pdf-generator.ts:131-162): resolve the template (an
unknown `templateId` throws `Template '<id>' not found` to the caller —
nothing is allocated); otherwise allocate a `pending` job with a fresh id
(`uuidv4()`, passed as `jobId`), register it, start asynchronous
processing, and return the job handle.  `now` stands for `Date.now()`. -/
def generatePDF (st : GeneratorState) (jobId : String) (opts : GenerationOptions)
    (now : Nat) : Except String (GeneratorState × GenerationJob) :=
  match mapGet TEMPLATE_REGISTRY opts.templateId with
  | none => .error ("Template \x27" ++ opts.templateId ++ "\x27 not found")
  | some _ =>
      let job : GenerationJob :=
        { id := jobId, templateId := opts.templateId, status := .pending,
          progress := 0, result := none, error := none,
          createdAt := now, updatedAt := now,
          expiresAt := now + 24 * 60 * 60 * 1000 }
      .ok ({ st with jobs := mapSet st.jobs jobId job }, job)

/-- JavaScript truthiness of a JSON value, as tested by
`if (cachedResult)` (pdf-generator.ts:185). -/
def truthy : Json → Bool
  | .null => false
  | .bool b => b
  | .num n => n != 0
  | .str s => s ≠ ""
  | .arr _ => true
  | .obj _ => true

/-- The external collaborators `processJob` calls into, as oracles:
the Schema Validator (`validationService.validateData`; `some msg` models
a thrown validation error), the digest function of the Fingerprint
Function, and the Renderer Boundary — asset loading, template rendering
(data enrichment by `prepareTemplateData` folded in) and HTML-to-PDF
conversion plus output handling, the last returning the result payload
that is cached and attached to the job. -/
structure RenderEnv where
  validate : Json → TemplateConfig → Option String
  hash : String → String
  loadAssets : List String → Except String Unit
  render : String → Json → Except String String
  htmlToPdf : String → Except String Json

/-- Renderer Boundary invocations, recorded in order. -/
inductive BoundaryEvent where
  | loadAssets (assets : List String)
  | renderTemplate (templatePath : String)
  | htmlToPdf
deriving DecidableEq

/-- The cache-miss tail of `processJob` (pdf-generator.ts:193-243): load
assets (progress 30-40), render the template (progress 50-70), convert to
PDF and handle output (progress 90), cache the result under the
fingerprint, and complete at progress 100; any failure marks the job
`failed` with the error message. -/
def processMiss (env : RenderEnv) (cache : CacheManager) (job : GenerationJob)
    (cfg : TemplateConfig) (opts : GenerationOptions) (now : Nat) (cacheKey : String) :
    GenerationJob × CacheManager × List BoundaryEvent :=
  let job := { job with progress := 30 }
  let ev₁ := [BoundaryEvent.loadAssets cfg.assets]
  match env.loadAssets cfg.assets with
  | .error e =>
      ({ job with status := .failed, error := some e, updatedAt := now }, cache, ev₁)
  | .ok _ =>
      let job := { job with progress := 50 }
      let ev₂ := ev₁ ++ [BoundaryEvent.renderTemplate cfg.templatePath]
      match env.render cfg.templatePath opts.data with
      | .error e =>
          ({ job with status := .failed, error := some e, updatedAt := now }, cache, ev₂)
      | .ok html =>
          let job := { job with progress := 70 }
          let ev₃ := ev₂ ++ [BoundaryEvent.htmlToPdf]
          match env.htmlToPdf html with
          | .error e =>
              ({ job with status := .failed, error := some e, updatedAt := now }, cache, ev₃)
          | .ok result =>
              let job := { job with progress := 90 }
              let cache := cache.set cacheKey result cache.defaultTTL now
              let job :=
                { job with
                    result := some result, status := JobStatus.completed
                    progress := 100, updatedAt := now }
              (job, cache, ev₃)

/-- `processJob` (pdf-generator.ts:164-251): move to `processing`
(progress 10); validate (progress 20); compute the fingerprint and consult
the cache — a truthy cached payload completes the job at progress 100
without touching the Renderer Boundary; otherwise continue with
`processMiss`.  Returns the final job, the cache state, and the Renderer
Boundary events that occurred. -/
def processJob (env : RenderEnv) (cache : CacheManager) (job : GenerationJob)
    (cfg : TemplateConfig) (opts : GenerationOptions) (now : Nat) :
    GenerationJob × CacheManager × List BoundaryEvent :=
  let job := { job with status := JobStatus.processing, progress := 10, updatedAt := now }
  match env.validate opts.data cfg with
  | some errMsg =>
      ({ job with status := .failed, error := some errMsg, updatedAt := now }, cache, [])
  | none =>
      let job := { job with progress := 20 }
      let cacheKey := generateCacheKey env.hash opts.templateId opts.data opts.asJson
      let looked := cache.get cacheKey now
      let cache := looked.1
      match looked.2 with
      | some cached =>
          if truthy cached then
            let job :=
              { job with
                  result := some cached, status := JobStatus.completed
                  progress := 100, updatedAt := now }
            (job, cache, [])
          else
            processMiss env cache job cfg opts now cacheKey
      | none => processMiss env cache job cfg opts now cacheKey

/-- `cancelJob` (pdf-generator.ts:413-422): only a `pending` job is
cancelled — it becomes `failed` with error `Job cancelled` and the call
returns `true`; a missing job or one in any other status is untouched and
the call returns `false`. -/
def cancelJob (st : GeneratorState) (jobId : String) (now : Nat) :
    GeneratorState × Bool :=
  match mapGet st.jobs jobId with
  | some job =>
      if job.status = JobStatus.pending then
        let job' : GenerationJob :=
          { job with status := .failed, error := some "Job cancelled", updatedAt := now }
        ({ st with jobs := mapSet st.jobs jobId job' }, true)
      else (st, false)
  | none => (st, false)

-- Strict version of the key ordering, antisymmetric on lists without
-- duplicate keys; used to show a sorted, duplicate-free field list is
-- uniquely determined by its multiset of fields.
def keyStrict (p q : String × Json) : Prop := keyLe p q ∧ p.1 ≠ q.1

def dWitC1 : Json := .obj (.cons "a" (.num 1) (.cons "b" (.str "x") .nil))

def dWitC1' : Json := .obj (.cons "b" (.str "x") (.cons "a" (.num 1) .nil))


-- Concrete store for C3, built by two real `set` calls on an empty store
-- of capacity 10: entry "a" (6 serialized bytes) is older (timestamp 1)
-- and already expired at the later call time 100 (expiresAt 1 + 49 = 50);
-- entry "b" (3 serialized bytes, timestamp 2, expiresAt 2 + 998 = 1000)
-- is the only non-expired entry then, and in particular the non-expired
-- entry with the smallest timestamp.
def cmC3 : CacheManager :=
  applySets (emptyCM "./cache" 10 10)
    [SetOp.mk "a" (Json.str "abcd") 49 1, SetOp.mk "b" (Json.str "b") 998 2]

-- Concrete store for C10's witness: the index holds "a" but its payload
-- file is missing, so the unlink inside `delete` fails and is swallowed.
def cmC10 : CacheManager :=
  { cacheDir := "./cache", maxSize := 10, defaultTTL := 10,
    cacheIndex :=
      [("a", { key := "a", data := Json.null, timestamp := 1, expiresAt := 50, size := 4 })],
    files := [],
    persistedIndex :=
      [("a", { key := "a", data := Json.null, timestamp := 1, expiresAt := 50, size := 4 })] }

/-- Whether a submission call returned a job handle (`Except.ok`) rather
than throwing. -/
def submissionReturned : Except String (GeneratorState × GenerationJob) → Bool
  | .ok _ => true
  | .error _ => false

-- Environment, job, config and request shared by C7's theorems: every
-- oracle succeeds, the digest function is constant, so the fingerprint of
-- the request is "invoice_h".
def envC7 : RenderEnv :=
  { validate := fun _ _ => none, hash := fun _ => "h",
    loadAssets := fun _ => .ok (), render := fun _ _ => .ok "html",
    htmlToPdf := fun _ => .ok (Json.str "pdf") }

def jobC7 : GenerationJob :=
  { id := "j1", templateId := "invoice", status := .pending, progress := 0,
    result := none, error := none, createdAt := 0, updatedAt := 0, expiresAt := 1000 }

def cfgC7 : TemplateConfig :=
  { id := "invoice", name := "Professional Invoice Template", version := "1.0.0",
    engine := "handlebars", templatePath := "templates/invoice/index.hbs", assets := [] }

def optsC7 : GenerationOptions :=
  { templateId := "invoice", data := Json.null, asJson := Json.null }

-- C7 content stores: `cacheHitC7` holds a truthy payload under the
-- request's fingerprint, `cacheFalsyC7` holds the falsy payload `false`.
def cacheHitC7 : CacheManager :=
  { cacheDir := "./c", maxSize := 100, defaultTTL := 10,
    cacheIndex :=
      [("invoice_h",
        { key := "invoice_h", data := Json.str "r", timestamp := 0, expiresAt := 50, size := 3 })],
    files := [("./c/invoice_h.json", Json.str "r")],
    persistedIndex := [] }

def cacheFalsyC7 : CacheManager :=
  { cacheDir := "./c", maxSize := 100, defaultTTL := 10,
    cacheIndex :=
      [("invoice_h",
        { key := "invoice_h", data := Json.bool false, timestamp := 0, expiresAt := 50, size := 5 })],
    files := [("./c/invoice_h.json", Json.bool false)],
    persistedIndex := [] }

-- Job ledger for C8's witness: a pending job "p" and a completed job "c".
def jobPending : GenerationJob :=
  { id := "p", templateId := "invoice", status := .pending, progress := 0,
    result := none, error := none, createdAt := 0, updatedAt := 0, expiresAt := 1000 }

def jobDone : GenerationJob :=
  { id := "c", templateId := "invoice", status := .completed, progress := 100,
    result := some (Json.str "r"), error := none, createdAt := 0, updatedAt := 3,
    expiresAt := 1000 }

def stC8 : GeneratorState :=
  { jobs := [("p", jobPending), ("c", jobDone)], cache := emptyCM "./c" 10 10 }


-- ## Canonicalization lemmas

theorem JsonFields.toList_ofList (l : List (String × Json)) :
    (JsonFields.ofList l).toList = l := by
  induction l with
  | nil => rfl
  | cons p rest ih => cases p; simp [JsonFields.ofList, JsonFields.toList, ih]

theorem JsonFields.keys_eq_map_toList : ∀ (fs : JsonFields),
    fs.keys = fs.toList.map Prod.fst
  | .nil => rfl
  | .cons k v fs => by
      simp [JsonFields.keys, JsonFields.toList, JsonFields.keys_eq_map_toList fs]

theorem charListLe_refl (as : List Char) : charListLe as as = true := by
  induction as with
  | nil => rfl
  | cons a as ih => simp [charListLe, ih]

theorem charListLe_total (as bs : List Char) :
    charListLe as bs = true ∨ charListLe bs as = true := by
  induction as generalizing bs with
  | nil => exact Or.inl rfl
  | cons a as ih =>
    cases bs with
    | nil => exact Or.inr rfl
    | cons b bs =>
      rcases lt_trichotomy a b with hab | hab | hab
      · exact Or.inl (by simp [charListLe, hab])
      · subst hab
        rcases ih bs with h | h
        · exact Or.inl (by simp [charListLe, h])
        · exact Or.inr (by simp [charListLe, h])
      · exact Or.inr (by simp [charListLe, hab])

theorem charListLe_trans : ∀ {as bs cs : List Char},
    charListLe as bs = true → charListLe bs cs = true → charListLe as cs = true := by
  intro as
  induction as with
  | nil => intro bs cs _ _; rfl
  | cons a as ih =>
    intro bs cs h₁ h₂
    cases bs with
    | nil => simp [charListLe] at h₁
    | cons b bs =>
      cases cs with
      | nil => simp [charListLe] at h₂
      | cons c cs =>
        simp only [charListLe] at h₁ h₂ ⊢
        by_cases hab : a < b
        · simp only [hab, if_true] at h₁
          by_cases hbc : b < c
          · simp [lt_trans hab hbc]
          · by_cases hcb : c < b
            · simp [hbc, hcb] at h₂
            · have hbceq : b = c := le_antisymm (not_lt.mp hcb) (not_lt.mp hbc)
              subst hbceq
              simp [hab]
        · by_cases hba : b < a
          · simp [hab, hba] at h₁
          · have habeq : a = b := le_antisymm (not_lt.mp hba) (not_lt.mp hab)
            subst habeq
            simp only [lt_irrefl, if_false] at h₁
            by_cases hac : a < c
            · simp [hac]
            · by_cases hca : c < a
              · simp [hac, hca] at h₂
              · have haceq : a = c := le_antisymm (not_lt.mp hca) (not_lt.mp hac)
                subst haceq
                simp only [lt_irrefl, if_false] at h₂ ⊢
                exact ih h₁ h₂

theorem charListLe_antisymm : ∀ {as bs : List Char},
    charListLe as bs = true → charListLe bs as = true → as = bs := by
  intro as
  induction as with
  | nil =>
    intro bs h₁ h₂
    cases bs with
    | nil => rfl
    | cons b bs => simp [charListLe] at h₂
  | cons a as ih =>
    intro bs h₁ h₂
    cases bs with
    | nil => simp [charListLe] at h₁
    | cons b bs =>
      simp only [charListLe] at h₁ h₂
      by_cases hab : a < b
      · simp [hab, lt_asymm hab] at h₂
      · by_cases hba : b < a
        · simp [hab, hba] at h₁
        · have habeq : a = b := le_antisymm (not_lt.mp hba) (not_lt.mp hab)
          subst habeq
          simp only [lt_irrefl, if_false] at h₁ h₂
          exact congrArg (List.cons a) (ih h₁ h₂)

theorem keysNodupb_iff (ks : List String) : keysNodupb ks = true ↔ ks.Nodup := by
  induction ks with
  | nil => simp [keysNodupb]
  | cons k ks ih => simp [keysNodupb, ih, List.elem_iff]

theorem sortFields_toList : ∀ (fs : JsonFields),
    (sortFields fs).toList = fs.toList.map (fun p => (p.1, sortObjectKeys p.2))
  | .nil => rfl
  | .cons k v fs => by
      simp [sortFields, JsonFields.toList, sortFields_toList fs]

theorem extractKey_perm : ∀ (gs : JsonFields) (k : String) (w : Json) (gs' : JsonFields),
    extractKey gs k = some (w, gs') → gs.toList.Perm ((k, w) :: gs'.toList)
  | .nil, _, _, _, h => by simp [extractKey] at h
  | .cons k' v rest, k, w, gs', h => by
      simp only [extractKey] at h
      by_cases hk : k' = k
      · rw [if_pos hk] at h
        obtain ⟨hw, hrest⟩ : v = w ∧ rest = gs' := by simpa using h
        subst hk; subst hw; subst hrest
        exact List.Perm.refl _
      · rw [if_neg hk] at h
        cases hrec : extractKey rest k with
        | none => rw [hrec] at h; exact absurd h (by simp)
        | some p =>
          obtain ⟨w', rest'⟩ := p
          rw [hrec] at h
          obtain ⟨hw, hgs'⟩ : w' = w ∧ JsonFields.cons k' v rest' = gs' := by simpa using h
          rw [← hw, ← hgs']
          have ihp := extractKey_perm rest k w' rest' hrec
          show ((k', v) :: rest.toList).Perm ((k, w') :: (k', v) :: rest'.toList)
          exact (ihp.cons (k', v)).trans (List.Perm.swap _ _ _)

theorem extractKey_nodup : ∀ (gs : JsonFields) (k : String) (w : Json) (gs' : JsonFields),
    nodupKeysFields gs = true → extractKey gs k = some (w, gs') →
    nodupKeys w = true ∧ nodupKeysFields gs' = true
  | .nil, _, _, _, _, h => by simp [extractKey] at h
  | .cons k' v rest, k, w, gs', hn, h => by
      simp only [nodupKeysFields, Bool.and_eq_true] at hn
      simp only [extractKey] at h
      by_cases hk : k' = k
      · rw [if_pos hk] at h
        obtain ⟨hw, hrest⟩ : v = w ∧ rest = gs' := by simpa using h
        subst hw; subst hrest
        exact ⟨hn.1, hn.2⟩
      · rw [if_neg hk] at h
        cases hrec : extractKey rest k with
        | none => rw [hrec] at h; exact absurd h (by simp)
        | some p =>
          obtain ⟨w', rest'⟩ := p
          rw [hrec] at h
          obtain ⟨hw, hgs'⟩ : w' = w ∧ JsonFields.cons k' v rest' = gs' := by simpa using h
          rw [← hw, ← hgs']
          have ih := extractKey_nodup rest k w' rest' hn.2 hrec
          exact ⟨ih.1, by simp [nodupKeysFields, hn.1, ih.2]⟩

theorem sorted_key_unique {l₁ l₂ : List (String × Json)} (hp : l₁.Perm l₂)
    (hs₁ : l₁.Sorted keyLe) (hs₂ : l₂.Sorted keyLe)
    (hn : (l₁.map Prod.fst).Nodup) : l₁ = l₂ := by
  have hn₂ : (l₂.map Prod.fst).Nodup := ((hp.map Prod.fst).nodup_iff).mp hn
  have hpw₁ : l₁.Pairwise (fun p q => p.1 ≠ q.1) := List.pairwise_map.mp hn
  have hpw₂ : l₂.Pairwise (fun p q => p.1 ≠ q.1) := List.pairwise_map.mp hn₂
  have hs₁' : l₁.Sorted keyStrict := (hs₁.and hpw₁).imp (fun h => ⟨h.1, h.2⟩)
  have hs₂' : l₂.Sorted keyStrict := (hs₂.and hpw₂).imp (fun h => ⟨h.1, h.2⟩)
  haveI : IsAntisymm (String × Json) keyStrict :=
    ⟨fun _ _ h₁ h₂ => absurd (String.ext (charListLe_antisymm h₁.1 h₂.1)) h₁.2⟩
  exact List.eq_of_perm_of_sorted hp hs₁' hs₂'

mutual
theorem sortObjectKeys_eq_of_equivb : ∀ (a b : Json), equivb a b = true →
    nodupKeys a = true → nodupKeys b = true → sortObjectKeys a = sortObjectKeys b
  | .null, b, h, _, _ => by cases b <;> simp_all [equivb]
  | .bool x, b, h, _, _ => by cases b <;> simp_all [equivb]
  | .num x, b, h, _, _ => by cases b <;> simp_all [equivb]
  | .str x, b, h, _, _ => by cases b <;> simp_all [equivb]
  | .arr xs, b, h, ha, hb => by
      cases b with
      | arr ys =>
          simp only [equivb] at h
          simp only [nodupKeys] at ha hb
          simp only [sortObjectKeys]
          exact congrArg Json.arr (sortList_eq_of_equivbList xs ys h ha hb)
      | null => simp [equivb] at h
      | bool _ => simp [equivb] at h
      | num _ => simp [equivb] at h
      | str _ => simp [equivb] at h
      | obj _ => simp [equivb] at h
  | .obj fs, b, h, ha, hb => by
      cases b with
      | obj gs =>
          simp only [equivb] at h
          simp only [nodupKeys, Bool.and_eq_true] at ha hb
          simp only [sortObjectKeys]
          apply congrArg Json.obj
          apply congrArg JsonFields.ofList
          haveI : IsTotal (String × Json) keyLe :=
            ⟨fun p q => charListLe_total p.1.data q.1.data⟩
          haveI : IsTrans (String × Json) keyLe :=
            ⟨fun _ _ _ h₁ h₂ => charListLe_trans h₁ h₂⟩
          have hperm : ((sortFields fs).toList).Perm ((sortFields gs).toList) :=
            fieldsPerm_of_equivbFields fs gs h ha.2 hb.2
          have hkeys₁ : ((sortFields fs).toList.map Prod.fst).Nodup := by
            have hnod := (keysNodupb_iff fs.keys).mp ha.1
            rw [JsonFields.keys_eq_map_toList] at hnod
            rw [sortFields_toList]
            simpa using hnod
          have hkeyssorted :
              ((List.insertionSort keyLe (sortFields fs).toList).map Prod.fst).Nodup :=
            (((List.perm_insertionSort keyLe _).map Prod.fst).nodup_iff).mpr hkeys₁
          exact sorted_key_unique
            (((List.perm_insertionSort keyLe _).trans hperm).trans
              (List.perm_insertionSort keyLe _).symm)
            (List.sorted_insertionSort keyLe _)
            (List.sorted_insertionSort keyLe _)
            hkeyssorted
      | null => simp [equivb] at h
      | bool _ => simp [equivb] at h
      | num _ => simp [equivb] at h
      | str _ => simp [equivb] at h
      | arr _ => simp [equivb] at h

theorem sortList_eq_of_equivbList : ∀ (xs ys : JsonList), equivbList xs ys = true →
    nodupKeysList xs = true → nodupKeysList ys = true → sortList xs = sortList ys
  | .nil, ys, h, _, _ => by
      cases ys with
      | nil => rfl
      | cons y ys => simp [equivbList] at h
  | .cons x xs, ys, h, ha, hb => by
      cases ys with
      | nil => simp [equivbList] at h
      | cons y ys =>
          simp only [equivbList, Bool.and_eq_true] at h
          simp only [nodupKeysList, Bool.and_eq_true] at ha hb
          simp only [sortList]
          exact congrArg₂ JsonList.cons
            (sortObjectKeys_eq_of_equivb x y h.1 ha.1 hb.1)
            (sortList_eq_of_equivbList xs ys h.2 ha.2 hb.2)

theorem fieldsPerm_of_equivbFields : ∀ (fs gs : JsonFields), equivbFields fs gs = true →
    nodupKeysFields fs = true → nodupKeysFields gs = true →
    ((sortFields fs).toList).Perm ((sortFields gs).toList)
  | .nil, gs, h, _, _ => by
      cases gs with
      | nil => exact List.Perm.refl _
      | cons k v gs => simp [equivbFields] at h
  | .cons k v fs, gs, h, ha, hb => by
      simp only [equivbFields] at h
      cases hx : extractKey gs k with
      | none => rw [hx] at h; exact absurd h (by simp)
      | some p =>
          obtain ⟨w, gs'⟩ := p
          rw [hx] at h
          simp only [Bool.and_eq_true] at h
          simp only [nodupKeysFields, Bool.and_eq_true] at ha
          have hw := extractKey_nodup gs k w gs' hb hx
          have hvw : sortObjectKeys v = sortObjectKeys w :=
            sortObjectKeys_eq_of_equivb v w h.1 ha.1 hw.1
          have htail : ((sortFields fs).toList).Perm ((sortFields gs').toList) :=
            fieldsPerm_of_equivbFields fs gs' h.2 ha.2 hw.2
          have hgs : (gs.toList.map (fun p => (p.1, sortObjectKeys p.2))).Perm
              ((k, sortObjectKeys w) :: gs'.toList.map (fun p => (p.1, sortObjectKeys p.2))) := by
            simpa using (extractKey_perm gs k w gs' hx).map (fun p => (p.1, sortObjectKeys p.2))
          show ((k, sortObjectKeys v) :: (sortFields fs).toList).Perm ((sortFields gs).toList)
          rw [hvw, sortFields_toList gs, sortFields_toList fs, sortFields_toList gs'] at *
          exact (htail.cons _).trans hgs.symm
end

-- ## Association-list lemmas

theorem mapGet_mapSet_self {α : Type} (m : List (String × α)) (k : String) (v : α) :
    mapGet (mapSet m k v) k = some v := by
  induction m with
  | nil => simp [mapSet, mapGet]
  | cons p rest ih =>
      obtain ⟨k', v'⟩ := p
      by_cases hk : k' = k
      · simp [mapSet, hk, mapGet]
      · simp [mapSet, hk, mapGet, ih]

theorem mapGet_some_mem {α : Type} {m : List (String × α)} {k : String} {v : α}
    (h : mapGet m k = some v) : (k, v) ∈ m := by
  induction m with
  | nil => simp [mapGet] at h
  | cons p rest ih =>
      obtain ⟨k', v'⟩ := p
      by_cases hk : k' = k
      · rw [mapGet, if_pos hk] at h
        obtain hv : v' = v := by simpa using h
        subst hk; subst hv
        exact List.mem_cons_self _ _
      · rw [mapGet, if_neg hk] at h
        exact List.mem_cons_of_mem _ (ih h)

theorem mapGet_isSome_of_mem {α : Type} {m : List (String × α)} {k : String} {v : α}
    (h : (k, v) ∈ m) : (mapGet m k).isSome := by
  induction m with
  | nil => simp at h
  | cons p rest ih =>
      obtain ⟨k', v'⟩ := p
      rcases List.mem_cons.mp h with h₁ | h₁
      · obtain ⟨hk, hv⟩ : k = k' ∧ v = v' := by simpa using h₁
        subst hk
        simp [mapGet]
      · by_cases hk : k' = k
        · simp [mapGet, hk]
        · simpa [mapGet, hk] using ih h₁

theorem mapGet_eq_of_mem_nodup {α : Type} {m : List (String × α)} {k : String} {v : α}
    (hn : (m.map Prod.fst).Nodup) (h : (k, v) ∈ m) : mapGet m k = some v := by
  induction m with
  | nil => simp at h
  | cons p rest ih =>
      obtain ⟨k', v'⟩ := p
      simp only [List.map_cons, List.nodup_cons] at hn
      rcases List.mem_cons.mp h with h₁ | h₁
      · obtain ⟨hk, hv⟩ : k = k' ∧ v = v' := by simpa using h₁
        subst hk; subst hv
        simp [mapGet]
      · have hk : k' ≠ k := by
          intro hkk
          subst hkk
          exact hn.1 (List.mem_map.mpr ⟨(k', v), h₁, rfl⟩)
        simp [mapGet, hk, ih hn.2 h₁]

theorem mapErase_sublist {α : Type} (m : List (String × α)) (k : String) :
    (mapErase m k).Sublist m := by
  induction m with
  | nil => simp [mapErase]
  | cons p rest ih =>
      obtain ⟨k', v'⟩ := p
      by_cases hk : k' = k
      · simp only [mapErase, if_pos hk]
        exact List.sublist_cons_self _ _
      · simp only [mapErase, if_neg hk]
        exact ih.cons₂ _

theorem length_mapErase {α : Type} {m : List (String × α)} {k : String} {v : α}
    (h : mapGet m k = some v) : (mapErase m k).length + 1 = m.length := by
  induction m with
  | nil => simp [mapGet] at h
  | cons p rest ih =>
      obtain ⟨k', v'⟩ := p
      by_cases hk : k' = k
      · simp [mapErase, hk]
      · rw [mapGet, if_neg hk] at h
        simp [mapErase, hk, ih h]

theorem mapGet_eq_none_of_not_mem_keys {α : Type} {m : List (String × α)} {k : String}
    (h : k ∉ m.map Prod.fst) : mapGet m k = none := by
  induction m with
  | nil => rfl
  | cons p rest ih =>
      obtain ⟨k', v'⟩ := p
      simp only [List.map_cons, List.mem_cons] at h
      push_neg at h
      rw [mapGet, if_neg (fun hk => h.1 hk.symm)]
      exact ih h.2

theorem mapGet_mapErase_self {α : Type} {m : List (String × α)} {k : String}
    (hn : (m.map Prod.fst).Nodup) : mapGet (mapErase m k) k = none := by
  induction m with
  | nil => rfl
  | cons p rest ih =>
      obtain ⟨k', v'⟩ := p
      simp only [List.map_cons, List.nodup_cons] at hn
      by_cases hk : k' = k
      · rw [mapErase, if_pos hk]
        subst hk
        apply mapGet_eq_none_of_not_mem_keys
        exact hn.1
      · rw [mapErase, if_neg hk, mapGet, if_neg hk]
        exact ih hn.2

theorem mem_mapSet {α : Type} {m : List (String × α)} {k : String} {v : α} {p : String × α}
    (h : p ∈ mapSet m k v) : p ∈ m ∨ p = (k, v) := by
  induction m with
  | nil => simpa [mapSet] using h
  | cons q rest ih =>
      obtain ⟨k', v'⟩ := q
      by_cases hk : k' = k
      · rw [mapSet, if_pos hk] at h
        rcases List.mem_cons.mp h with h₁ | h₁
        · exact Or.inr h₁
        · exact Or.inl (List.mem_cons_of_mem _ h₁)
      · rw [mapSet, if_neg hk] at h
        rcases List.mem_cons.mp h with h₁ | h₁
        · exact Or.inl (h₁ ▸ List.mem_cons_self _ _)
        · rcases ih h₁ with h₂ | h₂
          · exact Or.inl (List.mem_cons_of_mem _ h₂)
          · exact Or.inr h₂

theorem keys_mapSet_subset {α : Type} {m : List (String × α)} {k a : String} {v : α}
    (h : a ∈ (mapSet m k v).map Prod.fst) : a ∈ m.map Prod.fst ∨ a = k := by
  obtain ⟨p, hp, ha⟩ := List.mem_map.mp h
  rcases mem_mapSet hp with h₁ | h₁
  · exact Or.inl (List.mem_map.mpr ⟨p, h₁, ha⟩)
  · exact Or.inr (by rw [h₁] at ha; exact ha.symm)

theorem nodup_keys_mapSet {α : Type} {m : List (String × α)} {k : String} {v : α}
    (hn : (m.map Prod.fst).Nodup) : ((mapSet m k v).map Prod.fst).Nodup := by
  induction m with
  | nil => simp [mapSet]
  | cons q rest ih =>
      obtain ⟨k', v'⟩ := q
      simp only [List.map_cons, List.nodup_cons] at hn
      by_cases hk : k' = k
      · subst hk
        simpa [mapSet, List.nodup_cons] using hn
      · rw [mapSet, if_neg hk]
        simp only [List.map_cons, List.nodup_cons]
        refine ⟨fun hmem => ?_, ih hn.2⟩
        rcases keys_mapSet_subset hmem with h₁ | h₁
        · exact hn.1 h₁
        · exact hk h₁

theorem nodup_keys_mapErase {α : Type} {m : List (String × α)} {k : String}
    (hn : (m.map Prod.fst).Nodup) : ((mapErase m k).map Prod.fst).Nodup :=
  ((mapErase_sublist m k).map Prod.fst).nodup hn

theorem fst_eq_of_mem_not_mem_mapErase {α : Type} {m : List (String × α)} {k : String}
    {p : String × α} (hp : p ∈ m) (hp' : p ∉ mapErase m k) : p.1 = k := by
  induction m with
  | nil => simp at hp
  | cons q rest ih =>
      obtain ⟨k', v'⟩ := q
      by_cases hk : k' = k
      · rw [mapErase, if_pos hk] at hp'
        rcases List.mem_cons.mp hp with h₁ | h₁
        · subst h₁; exact hk
        · exact absurd h₁ hp'
      · rw [mapErase, if_neg hk] at hp'
        rcases List.mem_cons.mp hp with h₁ | h₁
        · exact absurd (h₁ ▸ List.mem_cons_self _ _) hp'
        · exact ih h₁ (fun hmem => hp' (List.mem_cons_of_mem _ hmem))

-- ## Size accounting

theorem totalSize_mapErase {m : List (String × CacheEntry)} {k : String} {e : CacheEntry}
    (h : mapGet m k = some e) : totalSize m = totalSize (mapErase m k) + e.size := by
  induction m with
  | nil => simp [mapGet] at h
  | cons p rest ih =>
      obtain ⟨k', e'⟩ := p
      by_cases hk : k' = k
      · rw [mapGet, if_pos hk] at h
        obtain he : e' = e := by simpa using h
        subst he
        simp [mapErase, hk, totalSize]
        omega
      · rw [mapGet, if_neg hk] at h
        simp only [mapErase, if_neg hk, totalSize, List.map_cons, List.sum_cons]
        have := ih h
        simp only [totalSize] at this
        omega

theorem totalSize_mapSet_le (m : List (String × CacheEntry)) (k : String) (e : CacheEntry) :
    totalSize (mapSet m k e) ≤ totalSize m + e.size := by
  induction m with
  | nil => simp [mapSet, totalSize]
  | cons p rest ih =>
      obtain ⟨k', e'⟩ := p
      by_cases hk : k' = k
      · simp only [mapSet, if_pos hk, totalSize, List.map_cons, List.sum_cons]
        simp only [totalSize] at *
        omega
      · simp only [mapSet, if_neg hk, totalSize, List.map_cons, List.sum_cons]
        simp only [totalSize] at ih
        omega

theorem totalSize_filter_le (q : String × CacheEntry → Bool)
    (m : List (String × CacheEntry)) : totalSize (m.filter q) ≤ totalSize m := by
  induction m with
  | nil => simp [totalSize]
  | cons p rest ih =>
      by_cases hq : q p
      · simp only [List.filter_cons, hq, if_true, totalSize, List.map_cons, List.sum_cons]
        simp only [totalSize] at ih
        omega
      · simp only [List.filter_cons, hq, Bool.false_eq_true, if_false, totalSize,
          List.map_cons, List.sum_cons]
        simp only [totalSize] at ih
        omega

-- ## Oldest-entry scan

theorem findOldestLoop_some_ne_none :
    ∀ (idx : List (String × CacheEntry)) (k : String) (ts : Nat),
      findOldestLoop idx (some k) ts ≠ none
  | [], _, _ => by simp [findOldestLoop]
  | (k', e) :: rest, k, ts => by
      rw [findOldestLoop]
      by_cases h : e.timestamp < ts
      · rw [if_pos h]; exact findOldestLoop_some_ne_none rest k' e.timestamp
      · rw [if_neg h]; exact findOldestLoop_some_ne_none rest k ts

theorem findOldestLoop_none :
    ∀ (idx : List (String × CacheEntry)) (best : Option String) (bestTs : Nat),
      findOldestLoop idx best bestTs = none →
      best = none ∧ ∀ q ∈ idx, bestTs ≤ q.2.timestamp
  | [], best, bestTs, h => ⟨h, by simp⟩
  | (k', e) :: rest, best, bestTs, h => by
      rw [findOldestLoop] at h
      by_cases hlt : e.timestamp < bestTs
      · rw [if_pos hlt] at h
        exact absurd h (findOldestLoop_some_ne_none rest k' e.timestamp)
      · rw [if_neg hlt] at h
        obtain ⟨hb, hall⟩ := findOldestLoop_none rest best bestTs h
        refine ⟨hb, fun q hq => ?_⟩
        rcases List.mem_cons.mp hq with h₁ | h₁
        · subst h₁; exact not_lt.mp hlt
        · exact hall q h₁

theorem findOldestLoop_spec :
    ∀ (idx : List (String × CacheEntry)) (best : Option String) (bestTs : Nat) (k : String),
      findOldestLoop idx best bestTs = some k →
      (best = some k ∧ ∀ q ∈ idx, bestTs ≤ q.2.timestamp) ∨
      (∃ e, (k, e) ∈ idx ∧ e.timestamp < bestTs ∧
        ∀ q ∈ idx, e.timestamp ≤ q.2.timestamp)
  | [], best, bestTs, k, h => Or.inl ⟨h, by simp⟩
  | (k', e) :: rest, best, bestTs, k, h => by
      rw [findOldestLoop] at h
      by_cases hlt : e.timestamp < bestTs
      · rw [if_pos hlt] at h
        rcases findOldestLoop_spec rest (some k') e.timestamp k h with ⟨hb, hall⟩ | ⟨f, hf, hfl, hall⟩
        · obtain hk : k' = k := by simpa using hb
          subst hk
          refine Or.inr ⟨e, List.mem_cons_self _ _, hlt, fun q hq => ?_⟩
          rcases List.mem_cons.mp hq with h₁ | h₁
          · subst h₁; exact le_refl _
          · exact hall q h₁
        · refine Or.inr ⟨f, List.mem_cons_of_mem _ hf, lt_trans hfl hlt, fun q hq => ?_⟩
          rcases List.mem_cons.mp hq with h₁ | h₁
          · subst h₁; exact le_of_lt hfl
          · exact hall q h₁
      · rw [if_neg hlt] at h
        rcases findOldestLoop_spec rest best bestTs k h with ⟨hb, hall⟩ | ⟨f, hf, hfl, hall⟩
        · refine Or.inl ⟨hb, fun q hq => ?_⟩
          rcases List.mem_cons.mp hq with h₁ | h₁
          · subst h₁; exact not_lt.mp hlt
          · exact hall q h₁
        · refine Or.inr ⟨f, List.mem_cons_of_mem _ hf, hfl, fun q hq => ?_⟩
          rcases List.mem_cons.mp hq with h₁ | h₁
          · subst h₁; exact le_of_lt (lt_of_lt_of_le hfl (not_lt.mp hlt))
          · exact hall q h₁

theorem findOldestKey_isSome {idx : List (String × CacheEntry)}
    (hne : 0 < idx.length)
    (hts : ∀ p ∈ idx, p.2.timestamp < MAX_SAFE_INTEGER) :
    (findOldestKey idx).isSome := by
  cases h : findOldestKey idx with
  | some k => rfl
  | none =>
      obtain ⟨-, hall⟩ := findOldestLoop_none idx none MAX_SAFE_INTEGER h
      cases idx with
      | nil => simp at hne
      | cons p rest =>
          exact absurd (hall p (List.mem_cons_self _ _))
            (not_le.mpr (hts p (List.mem_cons_self _ _)))

theorem findOldestKey_min {idx : List (String × CacheEntry)} {k : String}
    (h : findOldestKey idx = some k) :
    ∃ e, (k, e) ∈ idx ∧ ∀ q ∈ idx, e.timestamp ≤ q.2.timestamp := by
  rcases findOldestLoop_spec idx none MAX_SAFE_INTEGER k h with ⟨hb, -⟩ | ⟨e, he, -, hall⟩
  · exact absurd hb (by simp)
  · exact ⟨e, he, hall⟩

-- ## Eviction-loop specification

theorem ensureSpaceLoop_spec :
    ∀ (fuel newSize : Nat) (cm : CacheManager) (cur : Nat),
      cm.cacheIndex.length < fuel →
      cur = totalSize cm.cacheIndex →
      (∀ p ∈ cm.cacheIndex, p.2.timestamp < MAX_SAFE_INTEGER) →
      (ensureSpaceLoop fuel newSize cur cm).cacheIndex.Sublist cm.cacheIndex
      ∧ (ensureSpaceLoop fuel newSize cur cm).maxSize = cm.maxSize
      ∧ (totalSize (ensureSpaceLoop fuel newSize cur cm).cacheIndex + newSize ≤ cm.maxSize
          ∨ (ensureSpaceLoop fuel newSize cur cm).cacheIndex = [])
      ∧ ((cm.cacheIndex.map Prod.fst).Nodup →
          ∀ p ∈ cm.cacheIndex, p ∉ (ensureSpaceLoop fuel newSize cur cm).cacheIndex →
          ∀ q ∈ (ensureSpaceLoop fuel newSize cur cm).cacheIndex,
            p.2.timestamp ≤ q.2.timestamp) := by
  intro fuel
  induction fuel with
  | zero =>
      intro newSize cm cur hlen _ _
      exact absurd hlen (Nat.not_lt_zero _)
  | succ fuel ih =>
      intro newSize cm cur hlen hcur hts
      simp only [ensureSpaceLoop]
      by_cases hcond : cm.maxSize < cur + newSize ∧ 0 < cm.cacheIndex.length
      · rw [if_pos hcond]
        split
        · rename_i k hfind
          obtain ⟨e, hmem, hmin⟩ := findOldestKey_min hfind
          split
          · rename_i e' hget
            have hD1 : (cm.delete k).1.cacheIndex = mapErase cm.cacheIndex k := by
              simp [CacheManager.delete, hget]
            have hD2 : (cm.delete k).1.maxSize = cm.maxSize := by
              simp [CacheManager.delete, hget]
            have hlenD : (cm.delete k).1.cacheIndex.length < fuel := by
              rw [hD1]
              have := length_mapErase hget
              omega
            have hcurD : cur - e'.size = totalSize (cm.delete k).1.cacheIndex := by
              rw [hD1]
              have := totalSize_mapErase hget
              omega
            have htsD : ∀ p ∈ (cm.delete k).1.cacheIndex,
                p.2.timestamp < MAX_SAFE_INTEGER := by
              rw [hD1]
              exact fun p hp => hts p ((mapErase_sublist _ _).subset hp)
            obtain ⟨ih₁, ih₂, ih₃, ih₄⟩ := ih newSize (cm.delete k).1 (cur - e'.size)
              hlenD hcurD htsD
            refine ⟨?_, ?_, ?_, ?_⟩
            · exact (hD1 ▸ ih₁).trans (mapErase_sublist _ _)
            · exact ih₂.trans hD2
            · rcases ih₃ with h | h
              · exact Or.inl (hD2 ▸ h)
              · exact Or.inr h
            · intro hnodup p hp hpnot q hq
              have hnodupD : ((cm.delete k).1.cacheIndex.map Prod.fst).Nodup := by
                rw [hD1]; exact nodup_keys_mapErase hnodup
              by_cases hpD : p ∈ (cm.delete k).1.cacheIndex
              · exact ih₄ hnodupD p hpD hpnot q hq
              · have hpk : p.1 = k := by
                  refine fst_eq_of_mem_not_mem_mapErase hp ?_
                  rw [← hD1]; exact hpD
                have hpget : mapGet cm.cacheIndex p.1 = some p.2 :=
                  mapGet_eq_of_mem_nodup hnodup (by simpa using hp)
                have hpe : p.2 = e' := by
                  rw [hpk] at hpget
                  rw [hpget] at hget
                  simpa using hget
                have hee : e = e' := by
                  have hg := mapGet_eq_of_mem_nodup hnodup hmem
                  rw [hg] at hget
                  simpa using hget
                have hq' : q ∈ cm.cacheIndex :=
                  (mapErase_sublist _ _).subset ((hD1 ▸ ih₁).subset hq)
                calc p.2.timestamp = e.timestamp := by rw [hpe, hee]
                  _ ≤ q.2.timestamp := hmin q hq'
          · rename_i hget
            exact absurd (mapGet_isSome_of_mem hmem) (by simp [hget])
        · rename_i hfind
          exact absurd (findOldestKey_isSome hcond.2 hts) (by simp [hfind])
      · rw [if_neg hcond]
        refine ⟨List.Sublist.refl _, rfl, ?_, ?_⟩
        · rcases not_and_or.mp hcond with h | h
          · left
            rw [hcur] at h
            omega
          · right
            have : cm.cacheIndex.length = 0 := by omega
            exact List.length_eq_zero.mp this
        · intro _ p hp hpnot _ _
          exact absurd hp hpnot

/-- The packaged specification of `ensureSpace`: the surviving index is a
sub-list of the original, `maxSize` is untouched, on exit either the new
entry fits or the store was emptied, and (for a duplicate-free index)
every evicted entry is at least as old as every surviving one. -/
theorem ensureSpace_spec (cm : CacheManager) (newSize : Nat)
    (hts : ∀ p ∈ cm.cacheIndex, p.2.timestamp < MAX_SAFE_INTEGER) :
    (ensureSpace cm newSize).cacheIndex.Sublist cm.cacheIndex
    ∧ (ensureSpace cm newSize).maxSize = cm.maxSize
    ∧ (totalSize (ensureSpace cm newSize).cacheIndex + newSize ≤ cm.maxSize
        ∨ (ensureSpace cm newSize).cacheIndex = [])
    ∧ ((cm.cacheIndex.map Prod.fst).Nodup →
        ∀ p ∈ cm.cacheIndex, p ∉ (ensureSpace cm newSize).cacheIndex →
        ∀ q ∈ (ensureSpace cm newSize).cacheIndex, p.2.timestamp ≤ q.2.timestamp) :=
  ensureSpaceLoop_spec (cm.cacheIndex.length + 1) newSize cm (totalSize cm.cacheIndex)
    (Nat.lt_succ_self _) rfl hts

-- ## `set`-level invariants

theorem delete_maxSize (cm : CacheManager) (k : String) :
    ((cm.delete k).1).maxSize = cm.maxSize := by
  simp only [CacheManager.delete]
  split <;> rfl

theorem ensureSpaceLoop_maxSize :
    ∀ (fuel newSize cur : Nat) (cm : CacheManager),
      (ensureSpaceLoop fuel newSize cur cm).maxSize = cm.maxSize
  | 0, _, _, _ => rfl
  | fuel + 1, newSize, cur, cm => by
      simp only [ensureSpaceLoop]
      split
      · split
        · rename_i k hfind
          split
          · rename_i e' hget
            exact (ensureSpaceLoop_maxSize fuel newSize (cur - e'.size)
              (cm.delete k).1).trans (delete_maxSize cm k)
          · rfl
        · rfl
      · rfl

theorem set_maxSize (cm : CacheManager) (key : String) (data : Json) (ttl now : Nat) :
    (cm.set key data ttl now).maxSize = cm.maxSize := by
  simp only [CacheManager.set]
  exact ensureSpaceLoop_maxSize _ _ _ _

theorem set_total_le (cm : CacheManager) (key : String) (data : Json) (ttl now : Nat)
    (hsize : byteLength (stringify data) ≤ cm.maxSize)
    (hts : ∀ p ∈ cm.cacheIndex, p.2.timestamp < MAX_SAFE_INTEGER) :
    totalSize (cm.set key data ttl now).cacheIndex ≤ cm.maxSize := by
  obtain ⟨-, -, hfit, -⟩ := ensureSpace_spec cm (byteLength (stringify data)) hts
  simp only [CacheManager.set]
  rcases hfit with h | h
  · have hstep := totalSize_mapSet_le (ensureSpace cm (byteLength (stringify data))).cacheIndex
      key { key := key, data := data, timestamp := now,
            expiresAt := now + ttl, size := byteLength (stringify data) }
    simp only at hstep
    omega
  · rw [h]
    simpa [mapSet, totalSize] using hsize

theorem set_timestamps (cm : CacheManager) (key : String) (data : Json) (ttl now : Nat)
    (hts : ∀ p ∈ cm.cacheIndex, p.2.timestamp < MAX_SAFE_INTEGER)
    (hnow : now < MAX_SAFE_INTEGER) :
    ∀ p ∈ (cm.set key data ttl now).cacheIndex, p.2.timestamp < MAX_SAFE_INTEGER := by
  intro p hp
  simp only [CacheManager.set] at hp
  rcases mem_mapSet hp with h | h
  · exact hts p
      ((ensureSpace_spec cm (byteLength (stringify data)) hts).1.subset h)
  · rw [h]
    exact hnow

theorem applySets_total_le : ∀ (ops : List SetOp) (cm : CacheManager),
    (∀ op ∈ ops, byteLength (stringify op.data) ≤ cm.maxSize) →
    (∀ op ∈ ops, op.now < MAX_SAFE_INTEGER) →
    (∀ p ∈ cm.cacheIndex, p.2.timestamp < MAX_SAFE_INTEGER) →
    totalSize cm.cacheIndex ≤ cm.maxSize →
    totalSize (applySets cm ops).cacheIndex ≤ cm.maxSize
  | [], _, _, _, _, hle => hle
  | op :: rest, cm, hsize, hts, hcmts, hle => by
      show totalSize (applySets (cm.set op.key op.data op.ttl op.now) rest).cacheIndex
        ≤ cm.maxSize
      have hmax := set_maxSize cm op.key op.data op.ttl op.now
      have h₁ := set_total_le cm op.key op.data op.ttl op.now
        (hsize op (List.mem_cons_self _ _)) hcmts
      have h₂ := set_timestamps cm op.key op.data op.ttl op.now hcmts
        (hts op (List.mem_cons_self _ _))
      have hrec := applySets_total_le rest (cm.set op.key op.data op.ttl op.now)
        (fun o ho => hmax ▸ hsize o (List.mem_cons_of_mem _ ho))
        (fun o ho => hts o (List.mem_cons_of_mem _ ho))
        h₂
        (hmax ▸ h₁)
      exact hmax ▸ hrec

theorem ensureSpaceLoop_sublist :
    ∀ (fuel newSize cur : Nat) (cm : CacheManager),
      (ensureSpaceLoop fuel newSize cur cm).cacheIndex.Sublist cm.cacheIndex
  | 0, _, _, _ => List.Sublist.refl _
  | fuel + 1, newSize, cur, cm => by
      simp only [ensureSpaceLoop]
      split
      · split
        · rename_i k hfind
          split
          · rename_i e' hget
            have hD1 : (cm.delete k).1.cacheIndex = mapErase cm.cacheIndex k := by
              simp [CacheManager.delete, hget]
            exact (hD1 ▸ ensureSpaceLoop_sublist fuel newSize (cur - e'.size)
              (cm.delete k).1).trans (mapErase_sublist _ _)
          · exact List.Sublist.refl _
        · exact List.Sublist.refl _
      · exact List.Sublist.refl _

-- ## Claim theorems

/-- C1: for every `templateId` and every pair of JSON-like values
`(data, options)`, two `generateCacheKey` calls on deep-equal inputs —
equal up to re-ordering of object keys at any nesting depth, with
JavaScript-well-formed (duplicate-key-free) objects — return the same key,
regardless of insertion order; this holds for every digest function
`hash`, in particular for the SHA-256 hex digest the code uses. -/
theorem generateCacheKey_deterministic (hash : String → String) (templateId : String)
    (d d' o o' : Json)
    (hd : equivb d d' = true) (ho : equivb o o' = true)
    (hd₁ : nodupKeys d = true) (hd₂ : nodupKeys d' = true)
    (ho₁ : nodupKeys o = true) (ho₂ : nodupKeys o' = true) :
    generateCacheKey hash templateId d o = generateCacheKey hash templateId d' o' := by
  simp only [generateCacheKey]
  rw [sortObjectKeys_eq_of_equivb d d' hd hd₁ hd₂,
    sortObjectKeys_eq_of_equivb o o' ho ho₁ ho₂]

/-- Witness for C1 at a concrete key-reordered pair. -/
theorem generateCacheKey_deterministic_witness :
    equivb dWitC1 dWitC1' = true ∧ nodupKeys dWitC1 = true ∧ nodupKeys dWitC1' = true
    ∧ generateCacheKey (fun s => s) "invoice" dWitC1 Json.null
      = generateCacheKey (fun s => s) "invoice" dWitC1' Json.null :=
  ⟨by decide, by decide, by decide,
    generateCacheKey_deterministic (fun s => s) "invoice" dWitC1 dWitC1' Json.null
      Json.null (by decide) (by decide) (by decide) (by decide) (by decide) (by decide)⟩

/-- C2: after any finite sequence of `set` calls starting from an empty
store, the sum of the `size` fields over the non-expired entries of the
index is at most the configured `maxSize`, provided no single inserted
entry's serialized size alone exceeds `maxSize` (timestamps are assumed
below `Number.MAX_SAFE_INTEGER`, as `Date.now()` guarantees). -/
theorem capacity_invariant (cacheDir : String) (maxSize defaultTTL : Nat)
    (ops : List SetOp) (now : Nat)
    (hsize : ∀ op ∈ ops, byteLength (stringify op.data) ≤ maxSize)
    (hts : ∀ op ∈ ops, op.now < MAX_SAFE_INTEGER) :
    totalSize ((applySets (emptyCM cacheDir maxSize defaultTTL) ops).cacheIndex.filter
      (fun p => decide (now ≤ p.2.expiresAt))) ≤ maxSize := by
  refine le_trans (totalSize_filter_le _ _) ?_
  exact applySets_total_le ops (emptyCM cacheDir maxSize defaultTTL) hsize hts
    (by simp [emptyCM]) (by simp [emptyCM, totalSize])

/-- Witness for C2 on a one-element workload. -/
theorem capacity_invariant_witness :
    (∀ op ∈ [SetOp.mk "a" (Json.str "xy") 10 5], byteLength (stringify op.data) ≤ 100)
    ∧ (∀ op ∈ [SetOp.mk "a" (Json.str "xy") 10 5], op.now < MAX_SAFE_INTEGER)
    ∧ totalSize ((applySets (emptyCM "./cache" 100 10)
        [SetOp.mk "a" (Json.str "xy") 10 5]).cacheIndex.filter
        (fun p => decide (7 ≤ p.2.expiresAt))) ≤ 100 :=
  ⟨by decide, by decide,
    capacity_invariant "./cache" 100 10 [SetOp.mk "a" (Json.str "xy") 10 5] 7
      (by decide) (by decide)⟩

/-- C5: `set(k, v)` immediately followed by `get(k)` — same `Date.now()`,
no intervening operation — returns exactly the stored value (deep-equal:
the parse of the serialized payload, which is `v` itself in this model). -/
theorem set_get_roundtrip (cm : CacheManager) (k : String) (v : Json) (ttl now : Nat) :
    ((cm.set k v ttl now).get k now).2 = some v := by
  simp only [CacheManager.set, CacheManager.get, mapGet_mapSet_self]
  rw [if_neg (by omega : ¬ now + ttl < now)]

/-- C9 counterexample: the rewrite of the persisted index performed by
`saveCacheIndex` is not of the write-new-then-replace shape — it is a
single direct write to the index path (here: on the empty index, with
cache directory `./cache`), so the claimed atomic-replace protocol is not
what the code does. -/
theorem saveCacheIndex_not_atomic_counterexample :
    ¬ atomicRewrite "./cache/index.json" (saveCacheIndexOps "./cache" []) := by
  rintro ⟨tmp, content, hne, heq⟩
  simp [saveCacheIndexOps] at heq

/-- C9 (amended): every rewrite of the persisted cache index is one direct
`fs.writeFile` of the serialized index to the index path itself; no write
to a separate location and no rename/replace step occurs, so a crash
during the write can leave a torn index at the index path. -/
theorem saveCacheIndex_single_direct_write (cacheDir : String)
    (idx : List (String × CacheEntry)) :
    (∃ content, saveCacheIndexOps cacheDir idx
        = [FsOp.write (cacheDir ++ "/index.json") content])
    ∧ ∀ src dst, FsOp.rename src dst ∉ saveCacheIndexOps cacheDir idx := by
  refine ⟨⟨stringify (.obj (indexJson idx)), rfl⟩, ?_⟩
  intro src dst hmem
  simp [saveCacheIndexOps] at hmem

/-- C3 counterexample: a `set` at `Date.now() = 100` that must evict
(9 resident bytes + 5 new > 10) removes the EXPIRED entry `"a"`
(timestamp 1, `expiresAt 50 < 100`) first and keeps `"b"` — even though
`"b"` is the non-expired resident entry with the smallest
`createdAt`/timestamp, which the claim says is removed first (had it
been, `"b"` would be absent afterwards, since a single eviction restores
capacity here).  `ensureSpace` never tests expiry. -/
theorem claim_c3_counterexample :
    ((mapGet cmC3.cacheIndex "a").map (fun e => (e.timestamp, e.expiresAt)) = some (1, 50)
      ∧ (mapGet cmC3.cacheIndex "b").map (fun e => (e.timestamp, e.expiresAt)) = some (2, 1000)
      ∧ (50 : Nat) < 100 ∧ (100 : Nat) ≤ 1000)
    ∧ mapGet (cmC3.set "c" (Json.str "abc") 20 100).cacheIndex "a" = none
    ∧ ((mapGet (cmC3.set "c" (Json.str "abc") 20 100).cacheIndex "b").isSome = true) :=
  ⟨⟨rfl, rfl, by decide, by decide⟩, rfl, rfl⟩

/-- C3 (amended): whenever a `set` call must evict to make room, eviction
(`ensureSpace`) removes the resident entry with the globally smallest
`timestamp` — expired or not — one entry at a time, oldest first, until
`currentTotalSize + newSize ≤ maxSize` (or the store is empty): every
evicted entry is at least as old as every surviving entry, and on exit
either the new entry fits or nothing is left. -/
theorem ensureSpace_evicts_globally_oldest (cm : CacheManager) (newSize : Nat)
    (hnodup : (cm.cacheIndex.map Prod.fst).Nodup)
    (hts : ∀ p ∈ cm.cacheIndex, p.2.timestamp < MAX_SAFE_INTEGER) :
    (∀ p ∈ cm.cacheIndex, p ∉ (ensureSpace cm newSize).cacheIndex →
      ∀ q ∈ (ensureSpace cm newSize).cacheIndex, p.2.timestamp ≤ q.2.timestamp)
    ∧ (totalSize (ensureSpace cm newSize).cacheIndex + newSize ≤ cm.maxSize
        ∨ (ensureSpace cm newSize).cacheIndex = []) := by
  obtain ⟨-, -, hfit, hord⟩ := ensureSpace_spec cm newSize hts
  exact ⟨hord hnodup, hfit⟩

/-- Witness for C3 (amended) on the concrete store `cmC3`. -/
theorem ensureSpace_evicts_globally_oldest_witness :
    (cmC3.cacheIndex.map Prod.fst).Nodup
    ∧ ((∀ p ∈ cmC3.cacheIndex, p ∉ (ensureSpace cmC3 5).cacheIndex →
        ∀ q ∈ (ensureSpace cmC3 5).cacheIndex, p.2.timestamp ≤ q.2.timestamp)
      ∧ (totalSize (ensureSpace cmC3 5).cacheIndex + 5 ≤ cmC3.maxSize
          ∨ (ensureSpace cmC3 5).cacheIndex = [])) :=
  ⟨by decide, ensureSpace_evicts_globally_oldest cmC3 5 (by decide) (by decide)⟩

/-- C4 counterexample: the boundary instant.  With `createdAt = 0` and
`ttl = 5`, a `get` at `now = 5` satisfies `now ≥ createdAt + ttl`, where
the claim requires absence — but the code only expires when
`now > expiresAt`, so the value is still returned. -/
theorem claim_c4_counterexample :
    (0 : Nat) + 5 ≤ 5
    ∧ (((emptyCM "./cache" 100 10).set "k" (Json.str "x") 5 0).get "k" 5).2
      = some (Json.str "x") :=
  ⟨by decide, rfl⟩

/-- C4 (amended): for a key inserted by `set` with time-to-live `ttl` at
time `ts`, a subsequent `get` returns the stored value whenever
`now ≤ ts + ttl` (the boundary instant included: the code expires only
when `now > expiresAt`), and whenever `now > ts + ttl` it returns `none`
and purges the stale entry from the index as a side effect. -/
theorem get_after_set_expiry (cm : CacheManager) (k : String) (v : Json)
    (ttl ts now : Nat)
    (hnodup : (cm.cacheIndex.map Prod.fst).Nodup) :
    (now ≤ ts + ttl → ((cm.set k v ttl ts).get k now).2 = some v)
    ∧ (ts + ttl < now →
        ((cm.set k v ttl ts).get k now).2 = none
        ∧ mapGet ((cm.set k v ttl ts).get k now).1.cacheIndex k = none) := by
  have hnodup1 :
      (((ensureSpace cm (byteLength (stringify v))).cacheIndex).map Prod.fst).Nodup :=
    ((ensureSpaceLoop_sublist _ _ _ _).map Prod.fst).nodup hnodup
  constructor
  · intro h
    simp only [CacheManager.set, CacheManager.get, mapGet_mapSet_self]
    rw [if_neg (by omega : ¬ ts + ttl < now)]
  · intro h
    constructor
    · simp only [CacheManager.set, CacheManager.get, mapGet_mapSet_self]
      rw [if_pos (by omega : ts + ttl < now)]
    · simp only [CacheManager.set, CacheManager.get, mapGet_mapSet_self]
      rw [if_pos (by omega : ts + ttl < now)]
      simp only [CacheManager.delete, mapGet_mapSet_self]
      exact mapGet_mapErase_self (nodup_keys_mapSet hnodup1)

/-- Witness for C4 (amended): a hit strictly before expiry and a purge
strictly after it. -/
theorem get_after_set_expiry_witness :
    (((emptyCM "./c" 100 10).set "k" (Json.str "x") 5 0).get "k" 3).2 = some (Json.str "x")
    ∧ ((((emptyCM "./c" 100 10).set "k" (Json.str "x") 5 0).get "k" 9).2 = none
        ∧ mapGet ((((emptyCM "./c" 100 10).set "k" (Json.str "x") 5 0).get "k" 9).1).cacheIndex "k"
          = none) :=
  ⟨(get_after_set_expiry (emptyCM "./c" 100 10) "k" (Json.str "x") 5 0 3
      (by decide)).1 (by decide),
   (get_after_set_expiry (emptyCM "./c" 100 10) "k" (Json.str "x") 5 0 9
      (by decide)).2 (by decide)⟩

/-- C10: for a key present in the index, `delete` returns `true`, removes
the key from the index and persists the updated index — also when the
payload file is absent and its unlink fails (the error is swallowed;
quantifying over all `files`, including ones without the payload path,
covers exactly that case, and the file map afterwards is the unlink's
best effort `mapErase`); for an absent key it returns `false` and leaves
the state untouched. -/
theorem delete_spec (cm : CacheManager) (k : String)
    (hnodup : (cm.cacheIndex.map Prod.fst).Nodup) :
    ((mapGet cm.cacheIndex k).isSome →
        (cm.delete k).2 = true
        ∧ mapGet (cm.delete k).1.cacheIndex k = none
        ∧ (cm.delete k).1.persistedIndex = (cm.delete k).1.cacheIndex
        ∧ (cm.delete k).1.files = mapErase cm.files (getCacheFilePath cm.cacheDir k))
    ∧ (mapGet cm.cacheIndex k = none → cm.delete k = (cm, false)) := by
  constructor
  · intro hsome
    obtain ⟨e, he⟩ := Option.isSome_iff_exists.mp hsome
    refine ⟨?_, ?_, ?_, ?_⟩ <;>
      simp [CacheManager.delete, he, mapGet_mapErase_self hnodup]
  · intro hnone
    simp [CacheManager.delete, hnone]

/-- Witness for C10: deleting the present key "a" (whose payload file is
missing) and the absent key "b". -/
theorem delete_spec_witness :
    ((cmC10.delete "a").2 = true
      ∧ mapGet (cmC10.delete "a").1.cacheIndex "a" = none
      ∧ (cmC10.delete "a").1.persistedIndex = (cmC10.delete "a").1.cacheIndex
      ∧ (cmC10.delete "a").1.files = mapErase cmC10.files (getCacheFilePath cmC10.cacheDir "a"))
    ∧ cmC10.delete "b" = (cmC10, false) :=
  ⟨(delete_spec cmC10 "a" (by decide)).1 rfl,
   (delete_spec cmC10 "b" (by decide)).2 rfl⟩

/-- C6 counterexample: submitting `templateId = "unknown-template"` does
NOT return a job handle — `generatePDF` throws
`Template 'unknown-template' not found` synchronously to the caller
before any job is allocated, so no job ever reaches `failed` with an
`UnknownTemplate` error. -/
theorem claim_c6_counterexample :
    submissionReturned (generatePDF ⟨[], emptyCM "./c" 10 10⟩ "job-1"
      { templateId := "unknown-template", data := Json.null, asJson := Json.null } 0)
      = false
    ∧ generatePDF ⟨[], emptyCM "./c" 10 10⟩ "job-1"
        { templateId := "unknown-template", data := Json.null, asJson := Json.null } 0
      = .error "Template \x27unknown-template\x27 not found" :=
  ⟨rfl, rfl⟩

/-- C6 (amended): a generation request whose `templateId` does not
resolve in `TEMPLATE_REGISTRY` makes the submit call itself throw
`Template '<id>' not found` to the caller: no job is allocated (no state
is produced), no render is attempted, and no job handle is returned. -/
theorem generatePDF_unknown_template (st : GeneratorState) (jobId : String)
    (opts : GenerationOptions) (now : Nat)
    (h : mapGet TEMPLATE_REGISTRY opts.templateId = none) :
    generatePDF st jobId opts now
      = .error ("Template \x27" ++ opts.templateId ++ "\x27 not found") := by
  simp [generatePDF, h]

/-- Witness for C6 (amended) at `templateId = "unknown-template"`. -/
theorem generatePDF_unknown_template_witness :
    mapGet TEMPLATE_REGISTRY "unknown-template" = none
    ∧ generatePDF ⟨[], emptyCM "./c" 10 10⟩ "job-1"
        { templateId := "unknown-template", data := Json.null, asJson := Json.null } 0
      = .error ("Template \x27" ++ "unknown-template" ++ "\x27 not found") :=
  ⟨rfl, generatePDF_unknown_template ⟨[], emptyCM "./c" 10 10⟩ "job-1"
    { templateId := "unknown-template", data := Json.null, asJson := Json.null } 0 rfl⟩

/-- C7 counterexample: a fingerprint lookup that HITS — the store returns
the cached payload `false` — does not short-circuit processing: the
`if (cachedResult)` truthiness test treats the payload as a miss, and the
job goes through the complete render pipeline, invoking every Renderer
Boundary step (asset loading, template render, HTML-to-PDF
conversion). -/
theorem claim_c7_counterexample :
    (cacheFalsyC7.get (generateCacheKey envC7.hash "invoice" Json.null Json.null) 5).2
      = some (Json.bool false)
    ∧ (processJob envC7 cacheFalsyC7 jobC7 cfgC7 optsC7 5).2.2
      = [BoundaryEvent.loadAssets [],
         BoundaryEvent.renderTemplate "templates/invoice/index.hbs",
         BoundaryEvent.htmlToPdf] :=
  ⟨rfl, rfl⟩

/-- C7 (amended): for every job whose fingerprint lookup in the Content
Store returns a TRUTHY cached payload (the code guards the short-circuit
with JavaScript truthiness, `if (cachedResult)`), and whose data passed
validation, processing sets the job's `result` from the cached payload,
`status` to `completed` and `progress` to 100, and performs no Renderer
Boundary invocation at all — no asset loading, no template render, no
HTML-to-PDF conversion. -/
theorem processJob_cache_hit (env : RenderEnv) (cache : CacheManager)
    (job : GenerationJob) (cfg : TemplateConfig) (opts : GenerationOptions)
    (now : Nat) (v : Json)
    (hval : env.validate opts.data cfg = none)
    (hget : (cache.get (generateCacheKey env.hash opts.templateId opts.data opts.asJson)
        now).2 = some v)
    (htruthy : truthy v = true) :
    (processJob env cache job cfg opts now).1.status = JobStatus.completed
    ∧ (processJob env cache job cfg opts now).1.progress = 100
    ∧ (processJob env cache job cfg opts now).1.result = some v
    ∧ (processJob env cache job cfg opts now).2.2 = [] := by
  simp [processJob, hval, hget, htruthy]

/-- Witness for C7 (amended) on the concrete hit store `cacheHitC7`. -/
theorem processJob_cache_hit_witness :
    envC7.validate optsC7.data cfgC7 = none
    ∧ (cacheHitC7.get (generateCacheKey envC7.hash optsC7.templateId optsC7.data
        optsC7.asJson) 5).2 = some (Json.str "r")
    ∧ truthy (Json.str "r") = true
    ∧ (processJob envC7 cacheHitC7 jobC7 cfgC7 optsC7 5).1.status = JobStatus.completed
    ∧ (processJob envC7 cacheHitC7 jobC7 cfgC7 optsC7 5).1.progress = 100
    ∧ (processJob envC7 cacheHitC7 jobC7 cfgC7 optsC7 5).1.result = some (Json.str "r")
    ∧ (processJob envC7 cacheHitC7 jobC7 cfgC7 optsC7 5).2.2 = [] := by
  have h := processJob_cache_hit envC7 cacheHitC7 jobC7 cfgC7 optsC7 5 (Json.str "r")
    rfl rfl (by decide)
  exact ⟨rfl, rfl, by decide, h.1, h.2.1, h.2.2.1, h.2.2.2⟩

/-- C8: `cancelJob(jobId)` returns `true` iff the job exists and is
`pending` at call time, in which case the job transitions to `failed`
with the cancellation-specific error `Job cancelled`; a job that is
`completed`, `failed` or `processing` — and a missing job — leaves the
ledger entirely unchanged and the call returns `false`. -/
theorem cancelJob_spec (st : GeneratorState) (jobId : String) (now : Nat) :
    ((cancelJob st jobId now).2 = true ↔
      ∃ job, mapGet st.jobs jobId = some job ∧ job.status = JobStatus.pending)
    ∧ (∀ job, mapGet st.jobs jobId = some job → job.status = JobStatus.pending →
        mapGet (cancelJob st jobId now).1.jobs jobId
          = some { job with
              status := JobStatus.failed, error := some "Job cancelled"
              updatedAt := now })
    ∧ (∀ job, mapGet st.jobs jobId = some job → job.status ≠ JobStatus.pending →
        cancelJob st jobId now = (st, false))
    ∧ (mapGet st.jobs jobId = none → cancelJob st jobId now = (st, false)) := by
  cases hj : mapGet st.jobs jobId with
  | none =>
      refine ⟨?_, ?_, ?_, ?_⟩
      · simp [cancelJob, hj]
      · intro job hjob
        exact absurd hjob (by simp)
      · intro job hjob
        exact absurd hjob (by simp)
      · intro _
        simp [cancelJob, hj]
  | some job =>
      by_cases hs : job.status = JobStatus.pending
      · refine ⟨?_, ?_, ?_, ?_⟩
        · simp only [cancelJob, hj, hs, if_true]
          exact ⟨fun _ => ⟨job, rfl, hs⟩, fun _ => trivial⟩
        · intro job' hjob' hs'
          obtain hjj : job = job' := by simpa using hjob'
          subst hjj
          simp [cancelJob, hj, hs, mapGet_mapSet_self]
        · intro job' hjob' hs'
          obtain hjj : job = job' := by simpa using hjob'
          subst hjj
          exact absurd hs hs'
        · intro hnone
          exact absurd hnone (by simp)
      · refine ⟨?_, ?_, ?_, ?_⟩
        · simp only [cancelJob, hj, hs, if_false]
          constructor
          · intro hfalse
            exact absurd hfalse (by simp)
          · rintro ⟨job', hjob', hs'⟩
            obtain hjj : job = job' := by simpa using hjob'
            subst hjj
            exact absurd hs' hs
        · intro job' hjob' hs'
          obtain hjj : job = job' := by simpa using hjob'
          subst hjj
          exact absurd hs' hs
        · intro job' hjob' hs'
          simp [cancelJob, hj, hs]
        · intro hnone
          exact absurd hnone (by simp)

/-- Witness for C8: cancelling the pending job "p" marks it failed with
`Job cancelled`; cancelling the completed job "c" and the missing job "x"
returns `false` and changes nothing. -/
theorem cancelJob_spec_witness :
    mapGet (cancelJob stC8 "p" 7).1.jobs "p"
      = some { jobPending with
          status := JobStatus.failed, error := some "Job cancelled", updatedAt := 7 }
    ∧ cancelJob stC8 "c" 7 = (stC8, false)
    ∧ cancelJob stC8 "x" 7 = (stC8, false) :=
  ⟨(cancelJob_spec stC8 "p" 7).2.1 jobPending rfl rfl,
   (cancelJob_spec stC8 "c" 7).2.2.1 jobDone rfl (by decide),
   (cancelJob_spec stC8 "x" 7).2.2.2 rfl⟩

end PdfGen
